import Mathlib

/-!
Verification of the rotation, reordering, sign-normalization and
analytic-signal subsystem of the xeofs package.

The definitions below are shallow embeddings of the Python source:

* `xeofs/models/eof_rotator.py` — `EOFRotator._fit_algorithm`,
  `EOFRotator._transform_algorithm`, `EOFRotator._compute_rot_mat_inv_trans`,
  `ComplexEOFRotator._transform_algorithm`;
* `xeofs/models/mca.py` — `ComplexMCA.fit`, `ComplexMCA.transform`,
  `ComplexMCA.homogeneous_patterns`, `ComplexMCA.heterogeneous_patterns`;
* `xeofs/utils/xarray_utils.py` — `_pad_exp`,
  `_hilbert_transform_with_padding`.

Machine floats are modelled by exact rationals (for the rotator algebra)
and by real numbers (for the analytic-signal stage, whose kernel uses the
exponential function); numpy/xarray array operations are modelled on
`List` and `Matrix` with explicit index bookkeeping.
-/

namespace Xeofs

/-- `np.sign` on real scalars: `-1` for negatives, `0` for zero, `1` for
positives.  This is the function applied by `EOFRotator._fit_algorithm`
(eof_rotator.py line 170) to the loading value at the feature index of
maximum absolute loading. -/
def npSign (x : ℚ) : ℚ :=
  if x < 0 then -1 else if x = 0 then 0 else 1

/-- Maximum value of a nonempty list (`0` for the empty list); helper for
the embedding of `np.argmax`. -/
def maxVal : List ℚ → ℚ
  | [] => 0
  | [x] => x
  | x :: y :: ys => max x (maxVal (y :: ys))

/-- `np.argmax`: index of the first occurrence of the maximum value
(`0` for the empty list). -/
def argmaxList : List ℚ → ℕ
  | [] => 0
  | [_] => 0
  | x :: y :: ys => if maxVal (y :: ys) ≤ x then 0 else argmaxList (y :: ys) + 1

/-- `abs(rot_loadings).argmax(feature)` for one mode column
(eof_rotator.py line 169): first feature index of maximal absolute
loading. -/
def argmaxAbs (c : List ℚ) : ℕ :=
  argmaxList (c.map (fun x => |x|))

/-- The sign vector `modes_sign` of `EOFRotator._fit_algorithm`
(eof_rotator.py lines 169-176): for each mode column, `np.sign` of the
loading at the feature index of maximum absolute loading.  A loading
matrix is represented as the list of its mode columns, each column a list
of per-feature loadings. -/
def modesSign (L : List (List ℚ)) : List ℚ :=
  L.map (fun c => npSign (c.getD (argmaxAbs c) 0))

/-- Columnwise multiplication of a matrix by a per-mode sign vector, the
broadcasting in `rot_components * modes_sign` and `scores * modes_sign`
(eof_rotator.py lines 177-178). -/
def applySignWith (s : List ℚ) (M : List (List ℚ)) : List (List ℚ) :=
  List.zipWith (fun sj c => c.map (fun x => sj * x)) s M

/-- Application of the freshly computed sign vector to the loadings
themselves. -/
def applySign (L : List (List ℚ)) : List (List ℚ) :=
  applySignWith (modesSign L) L

/-- Per-mode variance `(abs(rot_loadings) ** 2).sum(feature)`
(eof_rotator.py line 130). -/
def modeVariance (L : List (List ℚ)) : List ℚ :=
  L.map (fun c => (c.map (fun x => |x| ^ 2)).sum)

/-- Ascending `np.argsort` of a list of values, modelled as sorting the
indices `0, …, n-1` by value, equal values ordered by index (the stable
order; for distinct keys this coincides with every correct sort). -/
def argsortAsc (v : List ℚ) : List ℕ :=
  List.insertionSort
    (fun i j => v.getD i 0 < v.getD j 0 ∨ (v.getD i 0 = v.getD j 0 ∧ i ≤ j))
    (List.range v.length)

/-- The stored mode permutation `idx_sort = expvar.compute().argsort()[::-1]`
of `EOFRotator._fit_algorithm` (eof_rotator.py line 133): the reversal of
the ascending argsort of the per-mode variances. -/
def idxModesSorted (L : List (List ℚ)) : List ℕ :=
  (argsortAsc (modeVariance L)).reverse

/-- Mode selection `sel(mode=slice(1, n_modes))` of
`EOFRotator._fit_algorithm` (eof_rotator.py lines 106-107, 150-151): a
label-based slice over the mode coordinate `1, …, K`, keeping the labels
between `1` and `n_modes` inclusive.  The source performs no check that
`n_modes ≤ K`; the slice silently clips. -/
def selModes (nModes K : ℕ) : List ℕ :=
  ((List.range K).map (fun i => i + 1)).filter (fun m => decide (m ≤ nModes))

/-- The embedding of `np.linalg.inv` over an exact field: the inverse of a
square matrix via the adjugate formula (`(det M)⁻¹ • adjugate M`, which
equals Mathlib's nonsingular inverse). -/
def matInvAdj {K : Type} [Field K] [DecidableEq K] {k : ℕ}
    (M : Matrix (Fin k) (Fin k) K) : Matrix (Fin k) (Fin k) K :=
  (M.det)⁻¹ • M.adjugate

/-- `EOFRotator._compute_rot_mat_inv_trans` (eof_rotator.py lines 233-257):
for `power > 1` the rotation matrix is inverted (`np.linalg.inv`, with the
output core dimensions relabelled as the transpose), conjugated and laid
out back in input order — as a labelled matrix this is the conjugate
transpose of the inverse; for `power ≤ 1` the matrix is returned
unchanged. -/
def rotMatInvTrans {K : Type} [Field K] [StarRing K] [DecidableEq K] {k : ℕ}
    (power : ℕ) (R : Matrix (Fin k) (Fin k) K) : Matrix (Fin k) (Fin k) K :=
  if 1 < power then (matInvAdj R).conjTranspose else R

/-- The fit-time rotated-score computation of `EOFRotator._fit_algorithm`
(eof_rotator.py lines 149-178): normalize the unrotated scores by the
original singular values, rotate with the inverse transpose of the
rotation matrix, reorder the modes by the stored permutation, rescale by
the stored per-mode norms and fix the stored signs. -/
def fitRotatedScores {p k : ℕ} (scores : Matrix (Fin p) (Fin k) ℚ)
    (svals : Fin k → ℚ) (power : ℕ) (R : Matrix (Fin k) (Fin k) ℚ)
    (idx : Fin k → Fin k) (norms sgn : Fin k → ℚ) :
    Matrix (Fin p) (Fin k) ℚ :=
  fun s j =>
    (∑ m, (scores s m / svals m) * rotMatInvTrans power R m (idx j))
      * norms j * sgn j

/-- The transform-time rotated-score computation of
`EOFRotator._transform_algorithm` (eof_rotator.py lines 196-226): project
the data onto the original unrotated components, normalize by the original
singular values, then apply the identical inverse-transpose rotation,
stored permutation, stored norms and stored signs. -/
def transformRotatedScores {p f k : ℕ} (data : Matrix (Fin p) (Fin f) ℚ)
    (components : Matrix (Fin f) (Fin k) ℚ) (svals : Fin k → ℚ) (power : ℕ)
    (R : Matrix (Fin k) (Fin k) ℚ) (idx : Fin k → Fin k)
    (norms sgn : Fin k → ℚ) : Matrix (Fin p) (Fin k) ℚ :=
  fun s j =>
    (∑ m, ((∑ i, data s i * components i m) / svals m)
        * rotMatInvTrans power R m (idx j))
      * norms j * sgn j

/-- Python-level errors raised by the complex model variants. -/
inductive PyError : Type
  | notImplemented : PyError
deriving DecidableEq

/-- `ComplexMCA.transform` (mca.py lines 580-581): unconditionally raises
`NotImplementedError('Complex MCA does not support transform method.')`. -/
def complexMCA_transform {D R : Type} (_data1 _data2 : D) : Except PyError R :=
  Except.error PyError.notImplemented

/-- `ComplexMCA.homogeneous_patterns` (mca.py lines 583-584):
unconditionally raises `NotImplementedError('Complex MCA does not support
homogeneous_patterns method.')`. -/
def complexMCA_homogeneousPatterns {R : Type} (_correction : Option String)
    (_alpha : ℚ) : Except PyError R :=
  Except.error PyError.notImplemented

/-- `ComplexMCA.heterogeneous_patterns` (mca.py lines 586-587):
unconditionally raises `NotImplementedError('Complex MCA does not support
heterogeneous_patterns method.')`. -/
def complexMCA_heterogeneousPatterns {R : Type} (_correction : Option String)
    (_alpha : ℚ) : Except PyError R :=
  Except.error PyError.notImplemented

/-- Modelled from the spec: `ComplexEOF._transform_algorithm` lives in
`xeofs/models/eof.py`, which is not part of the sources at hand; both the
spec ("Complex-valued variants invoking operations not mathematically
defined for them … fatal not-implemented error") and the comment in
`ComplexEOFRotator._transform_algorithm` (eof_rotator.py lines 306-310:
"`transform` is not implemented for ComplexEOF, so this line of code will
actually raise an error") state that it raises `NotImplementedError`. -/
def complexEOF_transformAlgorithm {D R : Type} (_data : D) : Except PyError R :=
  Except.error PyError.notImplemented

/-- `ComplexEOFRotator._transform_algorithm` (eof_rotator.py lines
305-311): delegates through the method resolution order to
`ComplexEOF._transform_algorithm`. -/
def complexEOFRotator_transformAlgorithm {D R : Type} (data : D) :
    Except PyError R :=
  complexEOF_transformAlgorithm data

/-- `ComplexMCA.fit` (mca.py lines 442-510), abstracted over its external
collaborators: `prep1`/`prep2` are `preprocessor1.fit_transform` and
`preprocessor2.fit_transform`, `hib` is the Hilbert-transform stage and
`decomp` stands for the `CrossDecomposer` run together with the assembly
of the fitted data container (scores, norms, sorted-mode index), all of
which are functions of the two processed arrays alone.  Mirroring the
source lines 461-462, `prep1` is applied to `data1` with `weights2`, and
`prep2` to `data2` with `weights2`; `weights1` is accepted and never
used. -/
def complexMCA_fit {D W R : Type} (prep1 prep2 : D → Option W → D)
    (hib : D → D) (decomp : D → D → R) (data1 data2 : D)
    (_weights1 weights2 : Option W) : R :=
  let data1Processed := hib (prep1 data1 weights2)
  let data2Processed := hib (prep2 data2 weights2)
  decomp data1Processed data2Processed

/-- Least-squares linear fit
`np.polynomial.polynomial.polyfit(x, y, deg=1)` with `x = 0, …, N-1`
(xarray_utils.py line 231), in closed normal-equation form: returns the
pair (intercept, slope). -/
noncomputable def polyfitLin (y : List ℝ) : ℝ × ℝ :=
  let N : ℕ := y.length
  let xs : List ℝ := (List.range N).map (fun i : ℕ => (i : ℝ))
  let xbar := xs.sum / N
  let ybar := y.sum / N
  let sxx := (xs.map (fun t => (t - xbar) ^ 2)).sum
  let sxy := (List.zipWith (fun t v => (t - xbar) * (v - ybar)) xs y).sum
  let slope := sxy / sxx
  (ybar - slope * xbar, slope)

/-- Evaluation of the fitted first-degree polynomial,
`np.polynomial.polynomial.polyval` (xarray_utils.py lines 232-233). -/
noncomputable def polyvalLin (c : ℝ × ℝ) (t : ℝ) : ℝ :=
  c.1 + c.2 * t

/-- `yfit` (xarray_utils.py line 232): the fitted trend sampled at
`x = 0, …, N-1`. -/
noncomputable def linFit (y : List ℝ) : List ℝ :=
  (List.range y.length).map (fun i : ℕ => polyvalLin (polyfitLin y) (i : ℝ))

/-- `yfit_ext` (xarray_utils.py lines 229, 233): the fitted trend sampled
at the extended grid `x_ext = -N, …, 2N-1`, so entry `j` is the trend at
`j - N`. -/
noncomputable def linFitExt (y : List ℝ) : List ℝ :=
  (List.range (3 * y.length)).map
    (fun j : ℕ => polyvalLin (polyfitLin y) ((j : ℝ) - (y.length : ℝ)))

/-- `y_ano = y - yfit` (xarray_utils.py line 235): the detrended series. -/
noncomputable def detrended (y : List ℝ) : List ℝ :=
  List.zipWith (fun a b => a - b) y (linFit y)

/-- `amp_pre = np.take(y_ano, 0, axis=0)` (xarray_utils.py line 237): the
leading boundary amplitude of the detrended series. -/
noncomputable def ampPre (y : List ℝ) : ℝ :=
  (detrended y).getD 0 0

/-- `amp_pos = np.take(y_ano, -1, axis=0)` (xarray_utils.py line 238): the
trailing boundary amplitude of the detrended series. -/
noncomputable def ampPos (y : List ℝ) : ℝ :=
  (detrended y).getD (y.length - 1) 0

/-- `exp_ext = np.exp(-x / x.size / decay_factor)` (xarray_utils.py line
240): the exponentially decaying kernel of length `N`. -/
noncomputable def expKernel (N : ℕ) (decay : ℝ) : List ℝ :=
  (List.range N).map (fun i : ℕ => Real.exp (-(i : ℝ) / (N : ℝ) / decay))

/-- `pad_pre = amp_pre * exp_ext_reverse` (xarray_utils.py lines 241-243):
the leading pad, built from the reversed kernel. -/
noncomputable def padPre (decay : ℝ) (y : List ℝ) : List ℝ :=
  ((expKernel y.length decay).reverse).map (fun e => ampPre y * e)

/-- `pad_pos = amp_pos * exp_ext` (xarray_utils.py line 244): the trailing
pad. -/
noncomputable def padPos (decay : ℝ) (y : List ℝ) : List ℝ :=
  (expKernel y.length decay).map (fun e => ampPos y * e)

/-- `_pad_exp` (xarray_utils.py lines 209-248): concatenate the leading
pad, the detrended series and the trailing pad, then add back the
extrapolated trend over the extended grid. -/
noncomputable def padExp (decay : ℝ) (y : List ℝ) : List ℝ :=
  List.zipWith (fun a b => a + b)
    (padPre decay y ++ detrended y ++ padPos decay y) (linFitExt y)

/-- `_hilbert_transform_with_padding` (xarray_utils.py lines 179-207),
abstracted over the external `scipy.signal.hilbert` routine `H`: with
exponential padding (`padding = true`), pad the series, apply `H`, and
slice out `y[n_samples:2*n_samples]`; without padding apply `H`
directly.  The source performs no validation of the input length or of
`decay_factor`. -/
noncomputable def hilbertWithPadding (H : List ℝ → List ℂ) (padding : Bool)
    (decay : ℝ) (y : List ℝ) : List ℂ :=
  let n := y.length
  let yp := if padding then padExp decay y else y
  let h := H yp
  if padding then (h.drop n).take n else h

/-- C10: for fixed input data and fixed `weights2`, `ComplexMCA.fit` is
invariant under the value of `weights1`; both fields are preprocessed
with `weights2` (mca.py lines 461-462), so `weights1` never influences
the fitted result. -/
theorem complexMCA_fit_ignores_weights1 {D W R : Type}
    (prep1 prep2 : D → Option W → D) (hib : D → D) (decomp : D → D → R)
    (data1 data2 : D) (w1 w1' w2 : Option W) :
    complexMCA_fit prep1 prep2 hib decomp data1 data2 w1 w2
      = complexMCA_fit prep1 prep2 hib decomp data1 data2 w1' w2 ∧
    complexMCA_fit prep1 prep2 hib decomp data1 data2 w1 w2
      = decomp (hib (prep1 data1 w2)) (hib (prep2 data2 w2)) :=
  ⟨rfl, rfl⟩

/-- C9: the complex variants' unsupported operations — the forward
transform of a complex rotated EOF model and the `transform`,
`homogeneous_patterns` and `heterogeneous_patterns` of a complex MCA
model — all evaluate to a fatal not-implemented error and never to a
value. -/
theorem complexVariants_notImplemented {D R : Type} (data data1 data2 : D)
    (correction : Option String) (alpha : ℚ) :
    complexEOFRotator_transformAlgorithm (D := D) (R := R) data
        = Except.error PyError.notImplemented ∧
    complexMCA_transform (D := D) (R := R) data1 data2
        = Except.error PyError.notImplemented ∧
    complexMCA_homogeneousPatterns (R := R) correction alpha
        = Except.error PyError.notImplemented ∧
    complexMCA_heterogeneousPatterns (R := R) correction alpha
        = Except.error PyError.notImplemented :=
  ⟨rfl, rfl, rfl, rfl⟩

/-- The label slice `sel(mode=slice(1, n_modes))` keeps the first
`min K n_modes` of the `K` available mode labels. -/
theorem selModes_eq_range (n K : ℕ) :
    selModes n K = (List.range (min K n)).map (fun i => i + 1) := by
  induction K with
  | zero => simp [selModes]
  | succ K ih =>
    by_cases h : K + 1 ≤ n
    · have hKn : min K n = K := by omega
      have hK1n : min (K + 1) n = K + 1 := by omega
      unfold selModes at ih ⊢
      rw [List.range_succ, List.map_append, List.filter_append, ih, hKn, hK1n,
        List.range_succ, List.map_append]
      simp [h]
    · have hKn : min K n = n := by omega
      have hK1n : min (K + 1) n = n := by omega
      unfold selModes at ih ⊢
      rw [List.range_succ, List.map_append, List.filter_append, ih, hKn, hK1n]
      simp [h]

/-- C6 (amended): when the configured `n_modes` exceeds the `K` modes
available from the decomposition, `EOFRotator._fit_algorithm` raises no
error: the label slice silently proceeds with the `min K n_modes`
available modes. -/
theorem selModes_silently_clips (n K : ℕ) :
    selModes n K = (List.range (min K n)).map (fun i => i + 1) ∧
    (selModes n K).length = min K n ∧
    (K ≤ n → selModes n K = (List.range K).map (fun i => i + 1)) := by
  refine ⟨selModes_eq_range n K, ?_, ?_⟩
  · rw [selModes_eq_range]; simp
  · intro h
    rw [selModes_eq_range]
    have : min K n = K := by omega
    rw [this]

/-- C6 witness: a concrete clipping instance of the amended statement. -/
theorem selModes_silently_clips_witness :
    (3 ≤ 3 → selModes 3 3 = (List.range 3).map (fun i => i + 1)) ∧
    selModes 3 2 = (List.range (min 2 3)).map (fun i => i + 1) :=
  ⟨(selModes_silently_clips 3 3).2.2, (selModes_silently_clips 3 2).1⟩

/-- C6 counterexample: with `K = 2` available modes and `n_modes = 3`, the
mode selection of `_fit_algorithm` yields the ordinary value `[1, 2]` —
two modes instead of the requested three and no error — refuting the
claim that the fit fails with a fatal configuration error. -/
theorem selModes_overselect_no_error :
    selModes 3 2 = [1, 2] ∧ (selModes 3 2).length = 2 ∧ (2 : ℕ) ≠ 3 := by
  decide

/-- C4: the inverse-transpose routine shared by the fit-time and
transform-time projections returns the rotation matrix unchanged when
`power = 1`, and the conjugate transpose of the matrix inverse when
`power > 1`. -/
theorem rotMatInvTrans_spec {K : Type} [Field K] [StarRing K]
    [DecidableEq K] {k : ℕ} (power : ℕ) (R : Matrix (Fin k) (Fin k) K) :
    (power = 1 → rotMatInvTrans power R = R) ∧
    (1 < power → rotMatInvTrans power R = (R⁻¹).conjTranspose) := by
  constructor
  · intro h
    subst h
    simp [rotMatInvTrans]
  · intro h
    rw [rotMatInvTrans, if_pos h, Matrix.inv_def, Ring.inverse_eq_inv,
      matInvAdj]

/-- C4 witness: the oblique branch at a concrete invertible 1×1 rotation
matrix. -/
theorem rotMatInvTrans_spec_witness :
    rotMatInvTrans 2 (!![(2:ℚ)]) = ((!![(2:ℚ)])⁻¹).conjTranspose :=
  (rotMatInvTrans_spec 2 (!![(2:ℚ)])).2 (by decide)

/-- C1: the transform path applied to the fit data reproduces the
fit-time rotated scores exactly (hence within any relative tolerance,
in particular 1e-6): whenever the unrotated scores of the fitted model
are the projections of the fit data onto the unrotated components — the
decomposer contract assumed by the spec — the projection → `invT(R)` →
permutation → norm-rescaling → sign chain of
`EOFRotator._transform_algorithm` yields the same matrix as the fit-time
score computation of `EOFRotator._fit_algorithm`. -/
theorem transform_fit_roundtrip {p f k : ℕ} (power : ℕ)
    (data : Matrix (Fin p) (Fin f) ℚ) (components : Matrix (Fin f) (Fin k) ℚ)
    (scores : Matrix (Fin p) (Fin k) ℚ) (svals : Fin k → ℚ)
    (R : Matrix (Fin k) (Fin k) ℚ) (idx : Fin k → Fin k)
    (norms sgn : Fin k → ℚ)
    (h : ∀ s m, scores s m = ∑ i, data s i * components i m) :
    transformRotatedScores data components svals power R idx norms sgn
      = fitRotatedScores scores svals power R idx norms sgn := by
  funext s j
  unfold transformRotatedScores fitRotatedScores
  simp only [h]

/-- C1 witness: the round trip at a concrete one-sample, one-feature,
one-mode instance. -/
theorem transform_fit_roundtrip_witness :
    transformRotatedScores (p := 1) (f := 1) (k := 1) (fun _ _ => 1)
        (fun _ _ => 1) (fun _ => 1) 1 (fun _ _ => 1) id (fun _ => 1)
        (fun _ => 1)
      = fitRotatedScores (fun _ _ => 1) (fun _ => 1) 1 (fun _ _ => 1) id
        (fun _ => 1) (fun _ => 1) :=
  transform_fit_roundtrip 1 (fun _ _ => 1) (fun _ _ => 1) (fun _ _ => 1)
    (fun _ => 1) (fun _ _ => 1) id (fun _ => 1) (fun _ => 1)
    (fun s m => by simp)

theorem argmaxList_lt_length : ∀ (c : List ℚ), c ≠ [] → argmaxList c < c.length
  | [x], _ => by simp [argmaxList]
  | x :: y :: ys, _ => by
    by_cases h : maxVal (y :: ys) ≤ x
    · simp [argmaxList, h]
    · have ih := argmaxList_lt_length (y :: ys) (by simp)
      simp only [List.length_cons] at ih
      simp only [argmaxList, if_neg h, List.length_cons]
      omega

theorem getD_argmaxList : ∀ (c : List ℚ), c ≠ [] →
    c.getD (argmaxList c) 0 = maxVal c
  | [x], _ => by simp [argmaxList, maxVal]
  | x :: y :: ys, _ => by
    by_cases h : maxVal (y :: ys) ≤ x
    · simp [argmaxList, maxVal, h, max_eq_left]
    · have ih := getD_argmaxList (y :: ys) (by simp)
      have hx : x ≤ maxVal (y :: ys) := le_of_not_le h
      simp only [argmaxList, if_neg h, maxVal, List.getD_cons_succ, ih,
        max_eq_right hx]

theorem mem_le_maxVal : ∀ (c : List ℚ) (a : ℚ), a ∈ c → a ≤ maxVal c
  | [x], a, ha => by
    simp at ha
    simp [maxVal, ha]
  | x :: y :: ys, a, ha => by
    rcases List.mem_cons.1 ha with rfl | hmem
    · simp [maxVal]
    · have := mem_le_maxVal (y :: ys) a hmem
      simp only [maxVal]
      exact le_trans this (le_max_right _ _)

theorem getD_map_abs (c : List ℚ) (i : ℕ) (hi : i < c.length) :
    (c.map (fun x => |x|)).getD i 0 = |c.getD i 0| := by
  rw [List.getD_eq_getElem _ _ (by simpa using hi), List.getD_eq_getElem _ _ hi,
    List.getElem_map]

theorem argmaxAbs_lt_length (c : List ℚ) (hc : c ≠ []) :
    argmaxAbs c < c.length := by
  have := argmaxList_lt_length (c.map (fun x => |x|)) (by simpa using hc)
  simpa [argmaxAbs] using this

theorem abs_getD_argmaxAbs (c : List ℚ) (hc : c ≠ []) :
    |c.getD (argmaxAbs c) 0| = maxVal (c.map (fun x => |x|)) := by
  rw [← getD_map_abs c _ (argmaxAbs_lt_length c hc)]
  exact getD_argmaxList _ (by simpa using hc)

theorem abs_le_abs_argmaxAbs (c : List ℚ) (i : ℕ) (hi : i < c.length) :
    |c.getD i 0| ≤ |c.getD (argmaxAbs c) 0| := by
  have hc : c ≠ [] := by
    intro h
    subst h
    simp at hi
  rw [abs_getD_argmaxAbs c hc, ← getD_map_abs c i hi]
  exact mem_le_maxVal _ _ (by
    rw [List.getD_eq_getElem _ _ (by simpa using hi)]
    exact List.getElem_mem _)

theorem npSign_of_ne_zero (v : ℚ) (hv : v ≠ 0) :
    npSign v = 1 ∨ npSign v = -1 := by
  rcases lt_trichotomy v 0 with h | h | h
  · right
    simp [npSign, h]
  · exact absurd h hv
  · left
    have h1 : ¬v < 0 := not_lt.2 (le_of_lt h)
    simp [npSign, h1, hv]

theorem abs_npSign_of_ne_zero (v : ℚ) (hv : v ≠ 0) : |npSign v| = 1 := by
  rcases npSign_of_ne_zero v hv with h | h <;> simp [h]

theorem npSign_mul_self_pos (v : ℚ) (hv : v ≠ 0) : 0 < npSign v * v := by
  rcases lt_trichotomy v 0 with h | h | h
  · have : npSign v = -1 := by simp [npSign, h]
    rw [this]
    nlinarith
  · exact absurd h hv
  · have h1 : ¬v < 0 := not_lt.2 (le_of_lt h)
    have : npSign v = 1 := by simp [npSign, h1, hv]
    rw [this]
    nlinarith

theorem npSign_of_pos (v : ℚ) (hv : 0 < v) : npSign v = 1 := by
  have h1 : ¬v < 0 := not_lt.2 (le_of_lt hv)
  simp [npSign, h1, ne_of_gt hv]

theorem argmaxAbs_map_sign_mul (c : List ℚ) (s : ℚ) (hs : |s| = 1) :
    argmaxAbs (c.map (fun x => s * x)) = argmaxAbs c := by
  unfold argmaxAbs
  rw [List.map_map]
  congr 1
  apply List.map_congr_left
  intro x _
  simp [abs_mul, hs]

theorem resign_column (c : List ℚ)
    (h : c.getD (argmaxAbs c) 0 ≠ 0) :
    npSign ((c.map (fun x => npSign (c.getD (argmaxAbs c) 0) * x)).getD
      (argmaxAbs (c.map (fun x => npSign (c.getD (argmaxAbs c) 0) * x))) 0)
      = 1 := by
  set v := c.getD (argmaxAbs c) 0 with hv
  have hc : c ≠ [] := by
    intro hnil
    rw [hnil] at hv
    simp [List.getD] at hv
    exact h hv
  have habs : |npSign v| = 1 := abs_npSign_of_ne_zero v h
  rw [argmaxAbs_map_sign_mul c _ habs]
  have hlt : argmaxAbs c < c.length := argmaxAbs_lt_length c hc
  have hmap : (c.map (fun x => npSign v * x)).getD (argmaxAbs c) 0
      = npSign v * v := by
    rw [List.getD_eq_getElem _ _ (by simpa using hlt), List.getElem_map]
    congr 1
    rw [hv, List.getD_eq_getElem _ _ hlt]
  rw [hmap]
  exact npSign_of_pos _ (npSign_mul_self_pos v h)

theorem getD_modesSign (L : List (List ℚ)) (j : ℕ) (hj : j < L.length) :
    (modesSign L).getD j 0
      = npSign ((L.getD j []).getD (argmaxAbs (L.getD j [])) 0) := by
  unfold modesSign
  rw [List.getD_eq_getElem _ _ (by simpa using hj), List.getElem_map]
  congr 2 <;> rw [List.getD_eq_getElem _ _ hj]

/-- C2 (amended): the sign vector has one entry per mode; for each mode
the entry is `np.sign` of the loading at the first feature index of
maximal absolute loading — so it is `-1`, `0` or `1`, and it lies in
`{+1, -1}` exactly when that maximal loading is nonzero, while a zero
maximal loading yields `0`, not `+1`. -/
theorem modesSign_spec (L : List (List ℚ)) (c : List ℚ) (j i : ℕ)
    (hj : j < L.length) (hc : L.getD j [] = c) (hi : i < c.length) :
    (modesSign L).length = L.length ∧
    (modesSign L).getD j 0 = npSign (c.getD (argmaxAbs c) 0) ∧
    |c.getD i 0| ≤ |c.getD (argmaxAbs c) 0| ∧
    (c.getD (argmaxAbs c) 0 ≠ 0 →
      (modesSign L).getD j 0 = 1 ∨ (modesSign L).getD j 0 = -1) := by
  have hsign : (modesSign L).getD j 0 = npSign (c.getD (argmaxAbs c) 0) := by
    rw [getD_modesSign L j hj, hc]
  refine ⟨by simp [modesSign], hsign, abs_le_abs_argmaxAbs c i hi, ?_⟩
  intro hne
  rw [hsign]
  exact npSign_of_ne_zero _ hne

/-- C2 witness: a concrete loading matrix with one mode over two features
whose dominant loading is `-3`. -/
theorem modesSign_spec_witness :
    (modesSign [[(2:ℚ), -3]]).length = [[(2:ℚ), -3]].length ∧
    (modesSign [[(2:ℚ), -3]]).getD 0 0
      = npSign ([(2:ℚ), -3].getD (argmaxAbs [(2:ℚ), -3]) 0) ∧
    |[(2:ℚ), -3].getD 1 0| ≤ |[(2:ℚ), -3].getD (argmaxAbs [(2:ℚ), -3]) 0| ∧
    ([(2:ℚ), -3].getD (argmaxAbs [(2:ℚ), -3]) 0 ≠ 0 →
      (modesSign [[(2:ℚ), -3]]).getD 0 0 = 1 ∨
        (modesSign [[(2:ℚ), -3]]).getD 0 0 = -1) :=
  modesSign_spec [[(2:ℚ), -3]] [(2:ℚ), -3] 0 1 (by decide) (by decide)
    (by decide)

/-- C2 counterexample: for the loading matrix with a single all-zero mode
column, the computed sign entry is `0` — neither `+1` nor `-1` — refuting
the claim that every entry lies in `{+1, -1}` with `0` treated as `+1`. -/
theorem modesSign_zero_not_plus_one :
    modesSign [[(0:ℚ)]] = [0] ∧ ¬((0:ℚ) = 1 ∨ (0:ℚ) = -1) := by
  decide

theorem applySignWith_replicate_one :
    ∀ (n : ℕ) (M : List (List ℚ)), M.length ≤ n →
      applySignWith (List.replicate n 1) M = M := by
  intro n
  induction n with
  | zero =>
    intro M hM
    have : M = [] := by
      cases M with
      | nil => rfl
      | cons c M' => simp at hM
    subst this
    rfl
  | succ n ih =>
    intro M hM
    cases M with
    | nil => rfl
    | cons c M' =>
      have hM' : M'.length ≤ n := by simpa using hM
      have hc : List.map (fun x => (1:ℚ) * x) c = c := by simp
      calc applySignWith (List.replicate (n + 1) 1) (c :: M')
          = List.map (fun x => (1:ℚ) * x) c
              :: applySignWith (List.replicate n 1) M' := rfl
        _ = c :: M' := by rw [hc, ih M' hM']

theorem applySign_eq_map (L : List (List ℚ)) :
    applySign L
      = L.map (fun c => c.map
          (fun x => npSign (c.getD (argmaxAbs c) 0) * x)) := by
  unfold applySign applySignWith modesSign
  rw [List.zipWith_map_left]
  exact List.zipWith_same _ L

/-- C8 (amended): on a loading matrix all of whose modes have a nonzero
dominant loading, sign normalization is idempotent — after applying the
sign vector, recomputing it yields `+1` for every mode, and applying the
recomputed vector leaves the loadings and any conforming score matrix
unchanged.  (Without the nonzero proviso the property fails: an all-zero
mode keeps sign `0`.) -/
theorem signNormalization_idempotent (L S : List (List ℚ))
    (hL : ∀ c ∈ L, c.getD (argmaxAbs c) 0 ≠ 0) (hS : S.length = L.length) :
    modesSign (applySign L) = List.replicate L.length 1 ∧
    applySign (applySign L) = applySign L ∧
    applySignWith (modesSign (applySign L)) S = S := by
  have hones : modesSign (applySign L) = List.replicate L.length 1 := by
    rw [applySign_eq_map]
    unfold modesSign
    rw [List.map_map]
    apply List.eq_replicate_iff.2
    constructor
    · simp
    · intro b hb
      rcases List.mem_map.1 hb with ⟨c, hcL, hcb⟩
      rw [← hcb]
      exact resign_column c (hL c hcL)
  refine ⟨hones, ?_, ?_⟩
  · show applySignWith (modesSign (applySign L)) (applySign L) = applySign L
    rw [hones]
    exact applySignWith_replicate_one _ _ (by simp [applySign_eq_map])
  · rw [hones]
    exact applySignWith_replicate_one _ _ (le_of_eq hS)

/-- C8 witness: the idempotence instance for a concrete one-mode loading
matrix and score matrix. -/
theorem signNormalization_idempotent_witness :
    modesSign (applySign [[(2:ℚ), -3]])
      = List.replicate [[(2:ℚ), -3]].length 1 ∧
    applySign (applySign [[(2:ℚ), -3]]) = applySign [[(2:ℚ), -3]] ∧
    applySignWith (modesSign (applySign [[(2:ℚ), -3]])) [[(5:ℚ), 7]]
      = [[(5:ℚ), 7]] :=
  signNormalization_idempotent [[(2:ℚ), -3]] [[(5:ℚ), 7]] (by decide)
    (by decide)

/-- C8 counterexample: for an already-signed all-zero mode column, the
recomputed sign vector is `[0]`, not all `+1` — refuting the claim as
stated for every loading matrix. -/
theorem modesSign_applySign_zero_not_one :
    modesSign (applySign [[(0:ℚ)]]) = [0] ∧ (0:ℚ) ≠ 1 := by
  constructor
  · norm_num [modesSign, applySign, applySignWith, argmaxAbs, argmaxList,
      maxVal, npSign]
  · norm_num

theorem argsort_rel_total (v : List ℚ) :
    ∀ i j : ℕ,
      (v.getD i 0 < v.getD j 0 ∨ (v.getD i 0 = v.getD j 0 ∧ i ≤ j)) ∨
      (v.getD j 0 < v.getD i 0 ∨ (v.getD j 0 = v.getD i 0 ∧ j ≤ i)) := by
  intro i j
  rcases lt_trichotomy (v.getD i 0) (v.getD j 0) with h | h | h
  · exact Or.inl (Or.inl h)
  · rcases le_total i j with hij | hij
    · exact Or.inl (Or.inr ⟨h, hij⟩)
    · exact Or.inr (Or.inr ⟨h.symm, hij⟩)
  · exact Or.inr (Or.inl h)

theorem argsort_rel_trans (v : List ℚ) :
    ∀ a b c : ℕ,
      (v.getD a 0 < v.getD b 0 ∨ (v.getD a 0 = v.getD b 0 ∧ a ≤ b)) →
      (v.getD b 0 < v.getD c 0 ∨ (v.getD b 0 = v.getD c 0 ∧ b ≤ c)) →
      (v.getD a 0 < v.getD c 0 ∨ (v.getD a 0 = v.getD c 0 ∧ a ≤ c)) := by
  intro a b c hab hbc
  rcases hab with h1 | ⟨h1, h1'⟩ <;> rcases hbc with h2 | ⟨h2, h2'⟩
  · exact Or.inl (lt_trans h1 h2)
  · exact Or.inl (h2 ▸ h1)
  · exact Or.inl (h1 ▸ h2)
  · exact Or.inr ⟨h1.trans h2, le_trans h1' h2'⟩

theorem argsortAsc_sorted (v : List ℚ) :
    (argsortAsc v).Pairwise
      (fun i j =>
        v.getD i 0 < v.getD j 0 ∨ (v.getD i 0 = v.getD j 0 ∧ i ≤ j)) := by
  unfold argsortAsc
  exact @List.sorted_insertionSort ℕ
    (fun i j => v.getD i 0 < v.getD j 0 ∨ (v.getD i 0 = v.getD j 0 ∧ i ≤ j)) _
    ⟨argsort_rel_total v⟩ ⟨argsort_rel_trans v⟩ (List.range v.length)

theorem argsortAsc_perm (v : List ℚ) :
    (argsortAsc v).Perm (List.range v.length) :=
  List.perm_insertionSort _ _

/-- C3 (amended): the stored mode permutation is a bijection on the mode
indices, and sorts the modes by per-mode variance in descending order;
when two modes have exactly equal variance, the mode with the LARGER
original index comes first (the reversal of a stable ascending argsort
reverses the order of tied indices). -/
theorem idxModesSorted_spec (L : List (List ℚ)) :
    (idxModesSorted L).Perm (List.range L.length) ∧
    (idxModesSorted L).Pairwise (fun i j =>
      (modeVariance L).getD j 0 < (modeVariance L).getD i 0 ∨
      ((modeVariance L).getD j 0 = (modeVariance L).getD i 0 ∧ j < i)) := by
  have hlen : (modeVariance L).length = L.length := by simp [modeVariance]
  constructor
  · have h1 : (idxModesSorted L).Perm (List.range (modeVariance L).length) :=
      (List.reverse_perm _).trans (argsortAsc_perm _)
    rwa [hlen] at h1
  · have hrev : (idxModesSorted L).Pairwise (fun a b =>
        (modeVariance L).getD b 0 < (modeVariance L).getD a 0 ∨
        ((modeVariance L).getD b 0 = (modeVariance L).getD a 0 ∧ b ≤ a)) :=
      List.pairwise_reverse.2 (argsortAsc_sorted (modeVariance L))
    have hnd : (idxModesSorted L).Nodup :=
      List.nodup_reverse.2
        ((argsortAsc_perm _).nodup_iff.2 (List.nodup_range _))
    refine (hrev.and hnd).imp ?_
    rintro a b ⟨hba, hab⟩
    rcases hba with h | ⟨h, h'⟩
    · exact Or.inl h
    · exact Or.inr ⟨h, lt_of_le_of_ne h' (Ne.symm hab)⟩

/-- C3 counterexample: two modes with exactly equal variance.  The
computed permutation is `[1, 0]` — the larger original index first —
refuting the claim that ties are broken by the smaller original index
(which would give `[0, 1]`). -/
theorem idxModesSorted_tie_larger_first :
    modeVariance [[(1:ℚ)], [1]] = [1, 1] ∧
    idxModesSorted [[(1:ℚ)], [1]] = [1, 0] ∧ ([1, 0] : List ℕ) ≠ [0, 1] := by
  have h1 : modeVariance [[(1:ℚ)], [1]] = [1, 1] := by
    norm_num [modeVariance]
  refine ⟨h1, ?_, by decide⟩
  unfold idxModesSorted argsortAsc
  rw [h1]
  norm_num [List.insertionSort, List.orderedInsert]

theorem getD_map_range {α : Type} (f : ℕ → α) (n i : ℕ) (hi : i < n) (d : α) :
    ((List.range n).map f).getD i d = f i := by
  rw [List.getD_eq_getElem _ _ (by simpa using hi), List.getElem_map,
    List.getElem_range]

theorem getD_zipWith {α β γ : Type} (f : α → β → γ) (a : List α) (b : List β)
    (i : ℕ) (hia : i < a.length) (hib : i < b.length) (d : γ) (da : α)
    (db : β) :
    (List.zipWith f a b).getD i d = f (a.getD i da) (b.getD i db) := by
  rw [List.getD_eq_getElem _ _ (by simp [List.length_zipWith]; omega),
    List.getElem_zipWith, List.getD_eq_getElem _ _ hia,
    List.getD_eq_getElem _ _ hib]

theorem getD_append_left {α : Type} (a b : List α) (i : ℕ) (h : i < a.length)
    (d : α) : (a ++ b).getD i d = a.getD i d := by
  rw [List.getD_eq_getElem _ _ (by simp; omega),
    List.getElem_append_left h, List.getD_eq_getElem _ _ h]

theorem getD_append_right {α : Type} (a b : List α) (i : ℕ)
    (h : a.length ≤ i) (hi : i < a.length + b.length) (d : α) :
    (a ++ b).getD i d = b.getD (i - a.length) d := by
  rw [List.getD_eq_getElem _ _ (by simp; omega),
    List.getElem_append_right h, List.getD_eq_getElem _ _ (by omega)]

theorem getD_reverse {α : Type} (l : List α) (i : ℕ) (hi : i < l.length)
    (d : α) : l.reverse.getD i d = l.getD (l.length - 1 - i) d := by
  rw [List.getD_eq_getElem _ _ (by simpa using hi), List.getElem_reverse,
    List.getD_eq_getElem _ _ (by omega)]

theorem expKernel_length (N : ℕ) (d : ℝ) : (expKernel N d).length = N := by
  simp [expKernel]

theorem linFit_length (y : List ℝ) : (linFit y).length = y.length := by
  simp [linFit]

theorem linFitExt_length (y : List ℝ) :
    (linFitExt y).length = 3 * y.length := by
  simp [linFitExt]

theorem detrended_length (y : List ℝ) :
    (detrended y).length = y.length := by
  simp [detrended, linFit_length]

theorem padPre_length (d : ℝ) (y : List ℝ) :
    (padPre d y).length = y.length := by
  simp [padPre, expKernel_length]

theorem padPos_length (d : ℝ) (y : List ℝ) :
    (padPos d y).length = y.length := by
  simp [padPos, expKernel_length]

theorem padExp_length (d : ℝ) (y : List ℝ) :
    (padExp d y).length = 3 * y.length := by
  simp [padExp, List.length_zipWith, padPre_length, padPos_length,
    detrended_length, linFitExt_length]
  omega

theorem padPos_getD (d : ℝ) (y : List ℝ) (i : ℕ) (hi : i < y.length) :
    (padPos d y).getD i 0
      = ampPos y * Real.exp (-(i : ℝ) / (y.length : ℝ) / d) := by
  unfold padPos expKernel
  rw [List.map_map, getD_map_range _ _ _ hi]
  rfl

theorem padPre_getD (d : ℝ) (y : List ℝ) (i : ℕ) (hi : i < y.length) :
    (padPre d y).getD i 0
      = ampPre y
          * Real.exp (-((y.length - 1 - i : ℕ) : ℝ) / (y.length : ℝ) / d) := by
  unfold padPre
  have h1 : i < (expKernel y.length d).reverse.length := by
    simp [expKernel_length]
    omega
  rw [List.getD_eq_getElem _ _ (by simpa using h1), List.getElem_map]
  have h2 : ((expKernel y.length d).reverse).getD i 0
      = (expKernel y.length d).getD (y.length - 1 - i) 0 := by
    have := getD_reverse (expKernel y.length d) i
      (by rw [expKernel_length]; omega) (0 : ℝ)
    rwa [expKernel_length] at this
  rw [← List.getD_eq_getElem _ _ h1, h2]
  unfold expKernel
  rw [getD_map_range _ _ _ (by omega)]

theorem hilbertWithPadding_eq (H : List ℝ → List ℂ) (d : ℝ) (y : List ℝ) :
    hilbertWithPadding H true d y
      = ((H (padExp d y)).drop y.length).take y.length := rfl

theorem hilbertWithPadding_length (H : List ℝ → List ℂ) (d : ℝ) (y : List ℝ)
    (hH : ∀ l, (H l).length = l.length) :
    (hilbertWithPadding H true d y).length = y.length := by
  rw [hilbertWithPadding_eq]
  rw [List.length_take, List.length_drop, hH, padExp_length]
  omega

theorem padExp_getD_middle (d : ℝ) (y : List ℝ) (i : ℕ) (hi : i < y.length) :
    (padExp d y).getD (y.length + i) 0 = y.getD i 0 := by
  unfold padExp
  have hlcat : (padPre d y ++ detrended y ++ padPos d y).length
      = 3 * y.length := by
    simp [padPre_length, padPos_length, detrended_length]
    omega
  rw [getD_zipWith _ _ _ _ (by rw [hlcat]; omega)
    (by rw [linFitExt_length]; omega) 0 0 0]
  have hcat : (padPre d y ++ detrended y ++ padPos d y).getD (y.length + i) 0
      = (detrended y).getD i 0 := by
    rw [getD_append_left _ _ _
      (by simp [padPre_length, detrended_length]; omega)]
    rw [getD_append_right _ _ _ (by rw [padPre_length]; omega)
      (by simp [padPre_length, detrended_length]; omega)]
    rw [padPre_length, Nat.add_sub_cancel_left]
  rw [hcat]
  have hext : (linFitExt y).getD (y.length + i) 0
      = polyvalLin (polyfitLin y) (i : ℝ) := by
    unfold linFitExt
    rw [getD_map_range _ _ _ (by omega)]
    congr 1
    push_cast
    ring
  rw [hext]
  have hdet : (detrended y).getD i 0
      = y.getD i 0 - polyvalLin (polyfitLin y) (i : ℝ) := by
    unfold detrended
    rw [getD_zipWith _ _ _ _ hi (by rw [linFit_length]; omega) 0 0 0]
    unfold linFit
    rw [getD_map_range _ _ _ hi]
  rw [hdet]
  ring

theorem padExp_getD_leading (d : ℝ) (y : List ℝ) (i : ℕ) (hi : i < y.length) :
    (padExp d y).getD i 0
      = (padPre d y).getD i 0 + (linFitExt y).getD i 0 := by
  unfold padExp
  rw [getD_zipWith _ _ _ _
    (by simp [padPre_length, padPos_length, detrended_length]; omega)
    (by rw [linFitExt_length]; omega) 0 0 0]
  rw [getD_append_left _ _ _ (by simp [padPre_length, detrended_length]; omega)]
  rw [getD_append_left _ _ _ (by rw [padPre_length]; omega)]

theorem padExp_getD_trailing (d : ℝ) (y : List ℝ) (i : ℕ)
    (hi : i < y.length) :
    (padExp d y).getD (2 * y.length + i) 0
      = (padPos d y).getD i 0 + (linFitExt y).getD (2 * y.length + i) 0 := by
  unfold padExp
  rw [getD_zipWith _ _ _ _
    (by simp [padPre_length, padPos_length, detrended_length]; omega)
    (by rw [linFitExt_length]; omega) 0 0 0]
  rw [getD_append_right _ _ _
    (by simp [padPre_length, detrended_length]; omega)
    (by simp [padPre_length, padPos_length, detrended_length]; omega)]
  have hidx : 2 * y.length + i - (padPre d y ++ detrended y).length = i := by
    simp [padPre_length, detrended_length]
    omega
  rw [hidx]

/-- C5: the analytic-signal routine with exponential padding builds
leading and trailing pads of length `N` each; trailing pad entry `i` is
the detrended boundary amplitude times `exp(-i/N/decay_factor)` and the
leading pad uses the reversed kernel; the padded series has length `3N`,
consists of leading pad plus extrapolated trend, then `y` itself, then
trailing pad plus extrapolated trend; the Hilbert transform is applied to
the padded series and exactly the middle third (entries `N` through
`2N-1`) is returned, so the output has the input's length `N`. -/
theorem analyticSignal_padding_spec (H : List ℝ → List ℂ) (decay : ℝ)
    (y : List ℝ) (i : ℕ) (hH : ∀ l, (H l).length = l.length)
    (hi : i < y.length) :
    (padPre decay y).length = y.length ∧
    (padPos decay y).length = y.length ∧
    (padPos decay y).getD i 0
      = ampPos y * Real.exp (-(i : ℝ) / (y.length : ℝ) / decay) ∧
    (padPre decay y).getD i 0
      = ampPre y
          * Real.exp
            (-((y.length - 1 - i : ℕ) : ℝ) / (y.length : ℝ) / decay) ∧
    (padExp decay y).length = 3 * y.length ∧
    (padExp decay y).getD i 0
      = (padPre decay y).getD i 0 + (linFitExt y).getD i 0 ∧
    (padExp decay y).getD (y.length + i) 0 = y.getD i 0 ∧
    (padExp decay y).getD (2 * y.length + i) 0
      = (padPos decay y).getD i 0
          + (linFitExt y).getD (2 * y.length + i) 0 ∧
    hilbertWithPadding H true decay y
      = ((H (padExp decay y)).drop y.length).take y.length ∧
    (hilbertWithPadding H true decay y).length = y.length :=
  ⟨padPre_length decay y, padPos_length decay y, padPos_getD decay y i hi,
    padPre_getD decay y i hi, padExp_length decay y,
    padExp_getD_leading decay y i hi, padExp_getD_middle decay y i hi,
    padExp_getD_trailing decay y i hi, hilbertWithPadding_eq H decay y,
    hilbertWithPadding_length H decay y hH⟩

/-- C5 witness: the padding structure at a concrete two-sample series. -/
theorem analyticSignal_padding_spec_witness :
    (padPre 1 [(1:ℝ), 2]).length = [(1:ℝ), 2].length ∧
    (padPos 1 [(1:ℝ), 2]).length = [(1:ℝ), 2].length ∧
    (padPos 1 [(1:ℝ), 2]).getD 0 0
      = ampPos [(1:ℝ), 2]
          * Real.exp (-((0:ℕ) : ℝ) / (([(1:ℝ), 2].length : ℕ) : ℝ) / 1) ∧
    (padPre 1 [(1:ℝ), 2]).getD 0 0
      = ampPre [(1:ℝ), 2]
          * Real.exp
            (-(([(1:ℝ), 2].length - 1 - 0 : ℕ) : ℝ)
              / (([(1:ℝ), 2].length : ℕ) : ℝ) / 1) ∧
    (padExp 1 [(1:ℝ), 2]).length = 3 * [(1:ℝ), 2].length ∧
    (padExp 1 [(1:ℝ), 2]).getD 0 0
      = (padPre 1 [(1:ℝ), 2]).getD 0 0 + (linFitExt [(1:ℝ), 2]).getD 0 0 ∧
    (padExp 1 [(1:ℝ), 2]).getD ([(1:ℝ), 2].length + 0) 0
      = [(1:ℝ), 2].getD 0 0 ∧
    (padExp 1 [(1:ℝ), 2]).getD (2 * [(1:ℝ), 2].length + 0) 0
      = (padPos 1 [(1:ℝ), 2]).getD 0 0
          + (linFitExt [(1:ℝ), 2]).getD (2 * [(1:ℝ), 2].length + 0) 0 ∧
    hilbertWithPadding (fun l => l.map (fun x : ℝ => (x : ℂ))) true 1
        [(1:ℝ), 2]
      = (((fun (l : List ℝ) => l.map (fun x : ℝ => (x : ℂ)))
            (padExp 1 [(1:ℝ), 2])).drop
          [(1:ℝ), 2].length).take [(1:ℝ), 2].length ∧
    (hilbertWithPadding (fun l => l.map (fun x : ℝ => (x : ℂ))) true 1
        [(1:ℝ), 2]).length = [(1:ℝ), 2].length :=
  analyticSignal_padding_spec _ 1 [(1:ℝ), 2] 0 (fun l => by simp)
    (by norm_num)

/-- C7 (amended): the analytic-signal routine performs no input
validation: for every input series and every `decay_factor` — including
non-positive values and inputs of fewer than 2 samples — the call returns
normally with the sliced Hilbert output of the input's length, raising no
error. -/
theorem analyticSignal_no_validation (H : List ℝ → List ℂ) (decay : ℝ)
    (y : List ℝ) (hH : ∀ l, (H l).length = l.length) :
    (hilbertWithPadding H true decay y).length = y.length ∧
    hilbertWithPadding H true decay y
      = ((H (padExp decay y)).drop y.length).take y.length :=
  ⟨hilbertWithPadding_length H decay y hH, hilbertWithPadding_eq H decay y⟩

/-- C7 witness: the amended statement at the invalid input
`decay_factor = -1`. -/
theorem analyticSignal_no_validation_witness :
    (hilbertWithPadding (fun l => l.map (fun x : ℝ => (x : ℂ))) true (-1)
        [(1:ℝ), 2]).length = [(1:ℝ), 2].length ∧
    hilbertWithPadding (fun l => l.map (fun x : ℝ => (x : ℂ))) true (-1)
        [(1:ℝ), 2]
      = (((fun (l : List ℝ) => l.map (fun x : ℝ => (x : ℂ)))
            (padExp (-1) [(1:ℝ), 2])).drop
          [(1:ℝ), 2].length).take [(1:ℝ), 2].length :=
  analyticSignal_no_validation _ _ _ (fun l => by simp)

/-- C7 counterexample: at the claimed-invalid inputs — a non-positive
`decay_factor = -1` with two samples, and a single-sample series — the
routine returns an ordinary result of the input's length instead of
failing, refuting the claim that such calls raise a fatal
input-validation error and never return. -/
theorem analyticSignal_invalid_inputs_return :
    (hilbertWithPadding (fun l => l.map (fun x : ℝ => (x : ℂ))) true (-1)
        [(1:ℝ), 2]).length = 2 ∧
    (hilbertWithPadding (fun l => l.map (fun x : ℝ => (x : ℂ))) true 1
        [(1:ℝ)]).length = 1 := by
  constructor
  · have := hilbertWithPadding_length (fun l => l.map (fun x : ℝ => (x : ℂ)))
      (-1) [(1:ℝ), 2] (fun l => by simp)
    simpa using this
  · have := hilbertWithPadding_length (fun l => l.map (fun x : ℝ => (x : ℂ)))
      1 [(1:ℝ)] (fun l => by simp)
    simpa using this

end Xeofs
